import Mathlib

/-!
Verification of the WhatsApp referral extractor.

We model strings as lists of characters. Character classes follow the
ASCII behaviour of the regular expressions in the source
(`[A-Z]`, `[a-z]`, `\d`, `\s`, `\b` with word characters `[A-Za-z0-9_]`,
`str.lower`); the source's regexes are embedded as explicit recursive
matchers with Python's leftmost / greedy / lazy semantics, including the
fact that `.` does not match a newline.
-/

namespace Referrals

/-- ASCII whitespace characters recognised by the regex class `\s`. -/
def isSpaceChar (c : Char) : Bool :=
  c = ' ' || c = '\t' || c = '\n' || c = '\r' || c = '\x0b' || c = '\x0c'

/-- Characters accepted by the separator class `[-.\s]` of the phone regex. -/
def isSep (c : Char) : Bool :=
  c = '-' || c = '.' || isSpaceChar c

/-- Word characters for `\b` (ASCII approximation of `\w`). -/
def isWordChar (c : Char) : Bool :=
  c.isAlpha || c.isDigit || c = '_'

/-- The two-character meridiem slot of the line regex is the class `[APM]{2}`. -/
def isAPM (c : Char) : Bool :=
  c = 'A' || c = 'P' || c = 'M'

/-- Python's `str.lower()` on ASCII text. -/
def pyLower (l : List Char) : List Char :=
  l.map Char.toLower

/-- Test that `pat` occurs at the start of `l`. -/
def startsWith : List Char → List Char → Bool
  | [], _ => true
  | _ :: _, [] => false
  | p :: ps, c :: cs => p = c && startsWith ps cs

/-- Python's substring test `pat in l`. -/
def containsSeq (pat : List Char) : List Char → Bool
  | [] => startsWith pat []
  | c :: rest => startsWith pat (c :: rest) || containsSeq pat rest

/-- Python's `l.endswith(suf)`. -/
def endsWith (suf l : List Char) : Bool :=
  startsWith suf.reverse l.reverse

/-- One extracted referral record, mirroring the dictionary built by
`extract_service_referrals`. -/
structure Referral where
  sender : List Char
  business_name : List Char
  contact : List Char
  message : List Char
  deriving DecidableEq, Repr

/-! ### The transcript-line regex
`\[\d{2}/\d{2}/\d{2}, \d{1,2}:\d{2} [APM]{2}\] (.*?): (.*)` -/

/-- The lazy group `(.*?)` followed by the literal `": "` and the greedy
`(.*)`: split the text at the first `": '` not preceded by a newline;
the message group stops at the first newline (`.` does not match `'\n'`). -/
def splitColonSpace : List Char → Option (List Char × List Char)
  | [] => none
  | c :: rest =>
    if c = ':' ∧ rest.head? = some ' ' then
      some ([], rest.tail.takeWhile (fun ch => ch ≠ '\n'))
    else if c = '\n' then none
    else (splitColonSpace rest).map (fun p => (c :: p.1, p.2))

/-- The part `\d{2} [APM]{2}\] ` — minutes, space, meridiem class, closing
bracket, space; returns the text after the bracket. -/
def minuteTail : List Char → Option (List Char)
  | m1 :: m2 :: ' ' :: x :: y :: ']' :: ' ' :: rest =>
    if m1.isDigit ∧ m2.isDigit ∧ isAPM x ∧ isAPM y then some rest else none
  | _ => none

/-- The part `\d{1,2}:` — the greedy one-or-two digit hour followed by a colon
(the two alternatives are mutually exclusive because `':'` is not a digit). -/
def hourTail : List Char → Option (List Char)
  | a :: ':' :: rest => if a.isDigit then minuteTail rest else none
  | a :: b :: ':' :: rest => if a.isDigit ∧ b.isDigit then minuteTail rest else none
  | _ => none

/-- The part `\d{2}/\d{2}/\d{2}, ` after the opening bracket. -/
def timestampTail : List Char → Option (List Char)
  | d1 :: d2 :: '/' :: d3 :: d4 :: '/' :: d5 :: d6 :: ',' :: ' ' :: rest =>
    if d1.isDigit ∧ d2.isDigit ∧ d3.isDigit ∧ d4.isDigit ∧ d5.isDigit ∧ d6.isDigit then
      hourTail rest
    else none
  | _ => none

/-- The `re.search` scan for the transcript-line pattern: try every start position
from the left; a position matches when it opens with `'['`, the timestamp
shape follows, and a `": "` separates sender from message. -/
def lineSearch : List Char → Option (List Char × List Char)
  | [] => none
  | c :: rest =>
    match (if c = '[' then (timestampTail rest).bind splitColonSpace else none) with
    | some sm => some sm
    | none => lineSearch rest

/-! ### The phone-number regex
`\b\d{3}[-.\s]?\d{3}[-.\s]?\d{4}\b`, used via `re.findall(...)[0]`. -/

/-- Three consecutive digits. -/
def take3 : List Char → Option (Char × Char × Char × List Char)
  | a :: b :: c :: r =>
    if a.isDigit ∧ b.isDigit ∧ c.isDigit then some (a, b, c, r) else none
  | _ => none

/-- Four consecutive digits. -/
def take4 : List Char → Option (Char × Char × Char × Char × List Char)
  | a :: b :: c :: d :: r =>
    if a.isDigit ∧ b.isDigit ∧ c.isDigit ∧ d.isDigit then some (a, b, c, d, r) else none
  | _ => none

/-- The optional separator `[-.\s]?`, instantiated with a separator class,
taken (`use = true`) or skipped (`use = false`). -/
def takeOptSep (sepOk : Char → Bool) (use : Bool) (l : List Char) :
    Option (List Char × List Char) :=
  if use then
    match l with
    | s :: r => if sepOk s then some ([s], r) else none
    | [] => none
  else some ([], l)

/-- One backtracking alternative of the phone pattern: `\d{3}`, optional
separator, `\d{3}`, optional separator, `\d{4}`; returns the matched text
and the rest. -/
def altPhone (sepOk : Char → Bool) (s1 s2 : Bool) (l : List Char) :
    Option (List Char × List Char) :=
  match take3 l with
  | none => none
  | some (a, b, c, r1) =>
    match takeOptSep sepOk s1 r1 with
    | none => none
    | some (m1, r2) =>
      match take3 r2 with
      | none => none
      | some (d, e, f, r3) =>
        match takeOptSep sepOk s2 r3 with
        | none => none
        | some (m2, r4) =>
          match take4 r4 with
          | none => none
          | some (g, h, i, j, r5) =>
            some ([a, b, c] ++ m1 ++ [d, e, f] ++ m2 ++ [g, h, i, j], r5)

/-- The trailing `\b` after the final digit: end of text or a non-word
character next. -/
def endBoundary : List Char → Bool
  | [] => true
  | c :: _ => !(isWordChar c)

/-- The leading `\b` before the first digit: start of text or a non-word
character just before. -/
def startBoundary : Option Char → Bool
  | none => true
  | some c => !(isWordChar c)

/-- One alternative, with the trailing boundary check. -/
def phoneTry (s1 s2 : Bool) (l : List Char) : Option (List Char) :=
  match altPhone isSep s1 s2 l with
  | some (m, r) => if endBoundary r then some m else none
  | none => none

/-- The phone pattern at a fixed position: the greedy engine prefers a
present separator, so alternatives are tried in the order
`(yes,yes)`, `(yes,no)`, `(no,yes)`, `(no,no)`. -/
def phoneAt (l : List Char) : Option (List Char) :=
  match phoneTry true true l with
  | some m => some m
  | none =>
    match phoneTry true false l with
    | some m => some m
    | none =>
      match phoneTry false true l with
      | some m => some m
      | none => phoneTry false false l

/-- Scan of `re.findall` for its first result: try each start position from
the left, remembering the previous character for the leading `\b`. -/
def findPhoneAux : Option Char → List Char → Option (List Char)
  | _, [] => none
  | prev, c :: rest =>
    if startBoundary prev then
      match phoneAt (c :: rest) with
      | some m => some m
      | none => findPhoneAux (some c) rest
    else findPhoneAux (some c) rest

/-- The value `re.findall(phone_regex, message)[0]`, or `none` when the list is empty. -/
def find_phone_numbers_first (message : List Char) : Option (List Char) :=
  findPhoneAux none message

/-! ### The business-name regex
`([A-Z][a-z]+(?:\s[A-Z][a-z]+)*)`, used via `re.search`. -/

/-- The greedy continuation of the capitalized-run pattern after
`[A-Z][a-z]` has matched: consume further `[a-z]` characters, and each time
the lowercase run ends at a separator followed by `[A-Z][a-z]`, extend with
one more repetition of `(?:\s[A-Z][a-z]+)`. -/
def capTail (sepOk : Char → Bool) : List Char → List Char
  | [] => []
  | c :: rest =>
    if c.isLower then c :: capTail sepOk rest
    else if sepOk c then
      match rest with
      | u :: c2 :: rest2 =>
        if u.isUpper ∧ c2.isLower then c :: u :: c2 :: capTail sepOk rest2 else []
      | _ => []
    else []

/-- The whole capitalized-run pattern at a fixed position: an uppercase
letter, at least one lowercase letter, then the greedy continuation. -/
def capAt (sepOk : Char → Bool) : List Char → Option (List Char)
  | u :: c :: rest =>
    if u.isUpper ∧ c.isLower then some (u :: c :: capTail sepOk rest) else none
  | _ => none

/-- The `re.search` scan for the capitalized-run pattern: first position, from
the left, where it matches. -/
def findCapRun (sepOk : Char → Bool) : List Char → Option (List Char)
  | [] => none
  | c :: rest =>
    match capAt sepOk (c :: rest) with
    | some b => some b
    | none => findCapRun sepOk rest

/-- The business-name search of the source (`\s` separators). -/
def find_business_first (message : List Char) : Option (List Char) :=
  findCapRun isSpaceChar message

/-! ### The extractor -/

/-- The fixed keyword list of `extract_service_referrals`. -/
def keywords : List (List Char) :=
  ["recommend".data, "try".data, "call".data, "great".data, "looking for".data,
   "know a good".data, "fixed my".data, "super reliable".data]

/-- Processing of a single transcript line: regex match, keyword test on the
lower-cased message, then field extraction. -/
def processLine (line : List Char) : Option Referral :=
  match lineSearch line with
  | none => none
  | some (sender, message) =>
    if keywords.any (fun k => containsSeq k (pyLower message)) then
      some { sender := sender
             business_name := (find_business_first message).getD "Unknown Business".data
             contact := (find_phone_numbers_first message).getD "No Contact Found".data
             message := message }
    else none

/-- The extraction of `extract_service_referrals` over the lines of the file, in order. -/
def extract_service_referrals (lines : List (List Char)) : List Referral :=
  lines.filterMap processLine

/-! ### Spec-side declarative descriptions (from the specification's words) -/

/-- Spec-side phone shape: exactly ten digits grouped 3-3-4, each group
boundary carrying an optional single separator character. -/
def phoneShape : List Char → Bool
  | [p0, p1, p2, p3, p4, p5, p6, p7, p8, p9] =>
    p0.isDigit && p1.isDigit && p2.isDigit && p3.isDigit && p4.isDigit &&
    p5.isDigit && p6.isDigit && p7.isDigit && p8.isDigit && p9.isDigit
  | [p0, p1, p2, p3, p4, p5, p6, p7, p8, p9, p10] =>
    (p0.isDigit && p1.isDigit && p2.isDigit && isSep p3 && p4.isDigit &&
     p5.isDigit && p6.isDigit && p7.isDigit && p8.isDigit && p9.isDigit && p10.isDigit) ||
    (p0.isDigit && p1.isDigit && p2.isDigit && p3.isDigit && p4.isDigit &&
     p5.isDigit && isSep p6 && p7.isDigit && p8.isDigit && p9.isDigit && p10.isDigit)
  | [p0, p1, p2, p3, p4, p5, p6, p7, p8, p9, p10, p11] =>
    p0.isDigit && p1.isDigit && p2.isDigit && isSep p3 && p4.isDigit &&
    p5.isDigit && p6.isDigit && isSep p7 && p8.isDigit && p9.isDigit &&
    p10.isDigit && p11.isDigit
  | _ => false

/-- Spec-side word-boundary condition on the text preceding a match: the
character immediately before the match — the last of `pre`, or failing
that the context character `prev` — must be absent or a non-word character. -/
def okBefore (prev : Option Char) : List Char → Bool
  | [] => startBoundary prev
  | c :: pre => okBefore (some c) pre

/-- Spec-side recogniser for the continuation of a capitalized word run
after its leading `[A-Z][a-z]`: any further lowercase letters, then zero or
more repetitions of separator-uppercase-lowercase-run. -/
def capCont (sepOk : Char → Bool) : List Char → Bool
  | [] => true
  | c :: rest =>
    if c.isLower then capCont sepOk rest
    else if sepOk c then
      match rest with
      | u :: c2 :: rest2 => u.isUpper && c2.isLower && capCont sepOk rest2
      | _ => false
    else false

/-- Spec-side capitalized-word-run shape: one or more words, each an
uppercase letter followed by at least one lowercase letter, consecutive
words joined by a single separator character. -/
def capRunShape (sepOk : Char → Bool) : List Char → Bool
  | u :: c :: rest => u.isUpper && c.isLower && capCont sepOk rest
  | _ => false

/-- Spec-side: the trailing text of a transcript line contains a
`": "` sender/message split reachable before any newline. -/
def hasColonSpace (l : List Char) : Bool :=
  containsSeq [':', ' '] (l.takeWhile (fun ch => ch ≠ '\n'))

/-- Spec-side minute/meridiem shape, parameterised by the meridiem test. -/
def minuteShape (marker : Char → Char → Bool) : List Char → Bool
  | m1 :: m2 :: ' ' :: x :: y :: ']' :: ' ' :: rest =>
    m1.isDigit && m2.isDigit && marker x y && hasColonSpace rest
  | _ => false

/-- Spec-side one-or-two digit hour followed by a colon. -/
def hourShape (marker : Char → Char → Bool) : List Char → Bool
  | a :: ':' :: rest => a.isDigit && minuteShape marker rest
  | a :: b :: ':' :: rest => a.isDigit && b.isDigit && minuteShape marker rest
  | _ => false

/-- Spec-side transcript-line shape anchored at one position: a bracketed
`DD/MM/YY, H:MM` timestamp with a meridiem slot accepted by `marker`,
followed by `sender: message`. -/
def shapeHere (marker : Char → Char → Bool) : List Char → Bool
  | '[' :: d1 :: d2 :: '/' :: d3 :: d4 :: '/' :: d5 :: d6 :: ',' :: ' ' :: rest =>
    d1.isDigit && d2.isDigit && d3.isDigit && d4.isDigit && d5.isDigit &&
    d6.isDigit && hourShape marker rest
  | _ => false

/-- Spec-side: the line contains the transcript-line shape at some position. -/
def hasShape (marker : Char → Char → Bool) : List Char → Bool
  | [] => false
  | c :: rest => shapeHere marker (c :: rest) || hasShape marker rest

/-- The meridiem slot as the code's character class `[APM]{2}` accepts it. -/
def markerClass (x y : Char) : Bool := isAPM x && isAPM y

/-- The meridiem slot as the claim words it: the literal marker `AM` or `PM`. -/
def markerStrict (x y : Char) : Bool := (x = 'A' || x = 'P') && y = 'M'

/-- Claim-side phone search: separators limited to `'-'`, `'.'` or a single
space, and no word-boundary requirement (the claim mentions none). -/
def claimSep (c : Char) : Bool := c = '-' || c = '.' || c = ' '

/-- Claim-side phone pattern at a fixed position (no boundary checks),
separator-present alternatives preferred. -/
def claimPhoneAt (l : List Char) : Option (List Char) :=
  match altPhone claimSep true true l with
  | some (m, _) => some m
  | none =>
    match altPhone claimSep true false l with
    | some (m, _) => some m
    | none =>
      match altPhone claimSep false true l with
      | some (m, _) => some m
      | none => (altPhone claimSep false false l).map (fun p => p.1)

/-- Claim-side first phone-shaped substring, scanning left to right. -/
def claimFirstPhone : List Char → Option (List Char)
  | [] => none
  | c :: rest =>
    match claimPhoneAt (c :: rest) with
    | some m => some m
    | none => claimFirstPhone rest

/-- Claim-side first capitalized run, words separated by a single space
exactly as the claim words it. -/
def claimFirstBusiness (message : List Char) : Option (List Char) :=
  findCapRun (fun c => c = ' ') message

/-! ### JSON serialization (`save_to_json` / `json.load`) -/

/-- The JSON documents this program writes: strings, arrays and objects. -/
inductive JsonValue where
  | str : List Char → JsonValue
  | arr : List JsonValue → JsonValue
  | obj : List (List Char × JsonValue) → JsonValue

/-- The dictionary built for one referral, as `json.dump` receives it. -/
def referralToJson (r : Referral) : JsonValue :=
  .obj [("sender".data, .str r.sender),
        ("business_name".data, .str r.business_name),
        ("contact".data, .str r.contact),
        ("message".data, .str r.message)]

/-- The function `save_to_json`: the document written for a referral list. -/
def save_to_json (referrals : List Referral) : JsonValue :=
  .arr (referrals.map referralToJson)

/-- Reading one record back: the four key lookups a consumer of the file
performs (as `search_referrals` does with `r["message"]`). -/
def jsonToReferral : JsonValue → Option Referral
  | .obj fields =>
    match fields.lookup "sender".data, fields.lookup "business_name".data,
          fields.lookup "contact".data, fields.lookup "message".data with
    | some (.str s), some (.str b), some (.str c), some (.str m) =>
      some ⟨s, b, c, m⟩
    | _, _, _, _ => none
  | _ => none

/-- Reading the elements of the top-level array back, all of which must be
record objects. -/
def decodeReferralList : List JsonValue → Option (List Referral)
  | [] => some []
  | v :: vs =>
    match jsonToReferral v, decodeReferralList vs with
    | some r, some rs => some (r :: rs)
    | _, _ => none

/-- Reading a whole document back as a record list (`json.load` plus the
per-record field access). -/
def jsonLoadReferrals : JsonValue → Option (List Referral)
  | .arr vs => decodeReferralList vs
  | _ => none

/-! ### The search endpoint (`search_referrals` in `main.py`) -/

/-- The JSON output folder as the search sees it: named files, each already
parsed into its record list. -/
abbrev OutputFile := List Char × List Referral

/-- The response dictionary `{"query": ..., "results": ...}`. -/
structure SearchResponse where
  query : List Char
  results : List Referral
  deriving DecidableEq

/-- The endpoint `search_referrals`: scan the folder, take files ending in `.json`, and
collect the records whose lower-cased message contains the lower-cased
query, extending one results list across files. -/
def search_referrals (query : List Char) (files : List OutputFile) : SearchResponse :=
  ⟨query,
   files.foldl
     (fun acc f =>
       if endsWith ".json".data f.1 then
         acc ++ f.2.filter (fun r => containsSeq (pyLower query) (pyLower r.message))
       else acc)
     []⟩

/-- Spec-side search results: the `.json` files in enumeration order, each
filtered to the records whose message contains the query case-insensitively,
concatenated in that order. -/
def specSearchResults (query : List Char) : List OutputFile → List Referral
  | [] => []
  | f :: fs =>
    (if endsWith ".json".data f.1 then
       f.2.filter (fun r => containsSeq (pyLower query) (pyLower r.message))
     else []) ++ specSearchResults query fs

/-! ### Batch mode (`process_uploaded_files`) -/

/-- A file in the upload folder: its name and, when it decodes as UTF-8
text, its lines (`none` models a file whose read raises a decode error). -/
abbrev UploadFile := List Char × Option (List (List Char))

/-- The observable effects of one batch run: the JSON and CSV documents
written and the source files removed, each in event order. -/
structure BatchState where
  jsonWritten : List (List Char × List Referral)
  csvWritten : List (List Char × List Referral)
  removed : List (List Char)
  deriving DecidableEq

/-- Python's `name.replace(pat, rep)`: replace every non-overlapping
occurrence, scanning left to right.  The `Nat` argument is recursion fuel;
`l.length + 1` always suffices since each step consumes at least one
character. -/
def replaceAllFuel (pat rep : List Char) : Nat → List Char → List Char
  | 0, l => l
  | _ + 1, [] => []
  | n + 1, c :: rest =>
    if startsWith pat (c :: rest) then
      rep ++ replaceAllFuel pat rep n (rest.drop (pat.length - 1))
    else c :: replaceAllFuel pat rep n rest

/-- Python's `name.replace(pat, rep)`. -/
def replaceAll (pat rep l : List Char) : List Char :=
  replaceAllFuel pat rep (l.length + 1) l

/-- The batch loop `process_uploaded_files`: scan the folder once; for each `.txt` file,
read and extract (a decode error propagates, aborting the loop: the second
component reports the aborting file), write JSON and CSV when any referral
was found, then remove the source file. -/
def process_uploaded_files :
    List UploadFile → BatchState → BatchState × Option (List Char)
  | [], st => (st, none)
  | (name, content) :: files, st =>
    if endsWith ".txt".data name then
      match content with
      | none => (st, some name)
      | some lines =>
        let referrals := extract_service_referrals lines
        let st' : BatchState :=
          { jsonWritten := st.jsonWritten ++
              (if referrals.isEmpty then []
               else [(replaceAll ".txt".data ".json".data name, referrals)])
            csvWritten := st.csvWritten ++
              (if referrals.isEmpty then []
               else [(replaceAll ".txt".data ".csv".data name, referrals)])
            removed := st.removed ++ [name] }
        process_uploaded_files files st'
    else process_uploaded_files files st

/-- No file before this point makes the batch loop abort: every `.txt`
entry decodes. -/
def decodesOk (files : List UploadFile) : Bool :=
  files.all (fun f => !(endsWith ".txt".data f.1) || f.2.isSome)

/-! ## Basic bridges between the executable tests and their meanings -/

theorem startsWith_iff (pat l : List Char) :
    startsWith pat l = true ↔ ∃ post, l = pat ++ post := by
  induction pat generalizing l with
  | nil =>
    constructor
    · intro _; exact ⟨l, rfl⟩
    · intro _; rfl
  | cons p ps ih =>
    cases l with
    | nil =>
      simp only [startsWith]
      constructor
      · intro h; cases h
      · rintro ⟨post, h⟩; cases h
    | cons c cs =>
      simp only [startsWith, Bool.and_eq_true, decide_eq_true_eq, ih, List.cons_append]
      constructor
      · rintro ⟨rfl, post, rfl⟩; exact ⟨post, rfl⟩
      · rintro ⟨post, h⟩
        injection h with h1 h2
        exact ⟨h1.symm, post, h2⟩

theorem containsSeq_iff (pat l : List Char) :
    containsSeq pat l = true ↔ ∃ pre post, l = pre ++ pat ++ post := by
  induction l with
  | nil =>
    simp only [containsSeq, startsWith_iff]
    constructor
    · rintro ⟨post, h⟩; exact ⟨[], post, by simpa using h⟩
    · rintro ⟨pre, post, h⟩
      rcases List.append_eq_nil.mp h.symm with ⟨h1, h2⟩
      rcases List.append_eq_nil.mp h1 with ⟨h3, h4⟩
      exact ⟨post, by simp [h4, h2]⟩
  | cons c cs ih =>
    simp only [containsSeq, Bool.or_eq_true, startsWith_iff, ih]
    constructor
    · rintro (⟨post, h⟩ | ⟨pre, post, h⟩)
      · exact ⟨[], post, by simpa using h⟩
      · exact ⟨c :: pre, post, by simp [h]⟩
    · rintro ⟨pre, post, h⟩
      cases pre with
      | nil => exact Or.inl ⟨post, by simpa using h⟩
      | cons x xs =>
        injection h with h1 h2
        exact Or.inr ⟨xs, post, h2⟩

/-! ## Claim C9: the line pattern is not anchored to the start of the line -/

/-- C9: the transcript-line match is a search, not an anchored match:
a line with arbitrary text before the bracketed timestamp still produces a
record, parsed from the bracketed portion onward. -/
theorem c9_unanchored_match :
    extract_service_referrals ["junk [01/02/23, 3:45 PM] Bob: call me".data] =
      [⟨"Bob".data, "Unknown Business".data, "No Contact Found".data, "call me".data⟩] := by
  decide

/-! ## Claim C7: JSON round-trip -/

theorem jsonToReferral_inv (r : Referral) :
    jsonToReferral (referralToJson r) = some r := rfl

/-- C7: serializing any list of referral records to a JSON document and
reading the document back yields the same records, with identical field
values, in the original order. -/
theorem c7_json_roundtrip (rs : List Referral) :
    jsonLoadReferrals (save_to_json rs) = some rs := by
  induction rs with
  | nil => rfl
  | cons r rs ih =>
    have h : decodeReferralList (List.map referralToJson rs) = some rs := by
      simpa [jsonLoadReferrals, save_to_json] using ih
    simp [jsonLoadReferrals, save_to_json, decodeReferralList, jsonToReferral_inv, h]

/-! ## Claim C6: the search endpoint -/

theorem search_results_eq (q : List Char) (files : List OutputFile) :
    (search_referrals q files).results = specSearchResults q files := by
  suffices h : ∀ acc,
      files.foldl
        (fun acc f =>
          if endsWith ".json".data f.1 then
            acc ++ f.2.filter (fun r => containsSeq (pyLower q) (pyLower r.message))
          else acc)
        acc = acc ++ specSearchResults q files by
    simpa [search_referrals] using h []
  induction files with
  | nil => intro acc; simp [specSearchResults]
  | cons f fs ih =>
    intro acc
    by_cases hj : endsWith ".json".data f.1 = true
    · simp [List.foldl_cons, hj, ih, specSearchResults]
    · simp [List.foldl_cons, hj, ih, specSearchResults]

theorem mem_specSearchResults (q : List Char) (r : Referral) (files : List OutputFile) :
    r ∈ specSearchResults q files ↔
      ∃ f ∈ files, endsWith ".json".data f.1 = true ∧ r ∈ f.2 ∧
        containsSeq (pyLower q) (pyLower r.message) = true := by
  induction files with
  | nil => simp [specSearchResults]
  | cons f fs ih =>
    by_cases hj : endsWith ".json".data f.1 = true
    · rw [specSearchResults, if_pos hj, List.mem_append, List.mem_filter, ih]
      constructor
      · rintro (⟨hr, hc⟩ | ⟨g, hg, hgj, hgr, hgc⟩)
        · exact ⟨f, List.mem_cons_self f fs, hj, hr, by simpa using hc⟩
        · exact ⟨g, List.mem_cons_of_mem f hg, hgj, hgr, hgc⟩
      · rintro ⟨g, hg, hgj, hgr, hgc⟩
        rcases List.mem_cons.mp hg with heq | hg'
        · subst heq; exact Or.inl ⟨hgr, by simpa using hgc⟩
        · exact Or.inr ⟨g, hg', hgj, hgr, hgc⟩
    · rw [specSearchResults, if_neg hj, List.nil_append, ih]
      constructor
      · rintro ⟨g, hg, hgj, hgr, hgc⟩
        exact ⟨g, List.mem_cons_of_mem f hg, hgj, hgr, hgc⟩
      · rintro ⟨g, hg, hgj, hgr, hgc⟩
        rcases List.mem_cons.mp hg with heq | hg'
        · subst heq; exact absurd hgj hj
        · exact ⟨g, hg', hgj, hgr, hgc⟩

/-- C6: the search returns the query echoed back together with exactly
those records, from the `.json` output files, whose message contains the
query as a case-insensitive substring — in file-enumeration order and then
record order (the list equality), membership characterised declaratively —
and the result list is empty when there are no files or no matches. -/
theorem c6_search_correct (q : List Char) (files : List OutputFile) :
    (search_referrals q files).query = q ∧
    (search_referrals q files).results = specSearchResults q files ∧
    (∀ r, r ∈ (search_referrals q files).results ↔
      ∃ f ∈ files, endsWith ".json".data f.1 = true ∧ r ∈ f.2 ∧
        ∃ pre post, pyLower r.message = pre ++ pyLower q ++ post) ∧
    ((∀ f ∈ files, ∀ r ∈ f.2,
        containsSeq (pyLower q) (pyLower r.message) = false) →
      (search_referrals q files).results = []) := by
  refine ⟨rfl, search_results_eq q files, ?_, ?_⟩
  · intro r
    rw [search_results_eq, mem_specSearchResults]
    constructor
    · rintro ⟨g, hg, h1, h2, h3⟩
      exact ⟨g, hg, h1, h2, (containsSeq_iff _ _).mp h3⟩
    · rintro ⟨g, hg, h1, h2, h3⟩
      exact ⟨g, hg, h1, h2, (containsSeq_iff _ _).mpr h3⟩
  · intro hnone
    rw [search_results_eq]
    rw [List.eq_nil_iff_forall_not_mem]
    intro r hr
    rcases (mem_specSearchResults q r files).mp hr with ⟨g, hg, hgj, hgr, hgc⟩
    rw [hnone g hg r hgr] at hgc
    cases hgc

/-! ## Claims C5 and C8: batch-mode behaviour -/

theorem removed_mono (files : List UploadFile) (st : BatchState) (name : List Char)
    (h : name ∈ st.removed) : name ∈ (process_uploaded_files files st).1.removed := by
  induction files generalizing st with
  | nil => exact h
  | cons f fs ih =>
    rcases f with ⟨fname, content⟩
    by_cases ht : endsWith ".txt".data fname = true
    · cases content with
      | none => simpa [process_uploaded_files, ht] using h
      | some lines =>
        simp only [process_uploaded_files, ht, if_true]
        apply ih
        simp [h]
    · simp only [process_uploaded_files, ht, if_false]
      exact ih st h

/-- C5 (amended): a decode failure on a `.txt` file does not merely
abort that file: the batch loop itself stops there.  If all earlier `.txt`
entries decode, the run ends with the aborting file reported, the effects
being exactly those of the earlier files; nothing after the bad file is
scanned, processed or removed. -/
theorem c5_decode_failure_aborts_batch (pre : List UploadFile) (name : List Char)
    (post : List UploadFile) (st : BatchState)
    (hpre : decodesOk pre = true) (ht : endsWith ".txt".data name = true) :
    process_uploaded_files (pre ++ (name, none) :: post) st =
      ((process_uploaded_files pre st).1, some name) := by
  induction pre generalizing st with
  | nil => simp [process_uploaded_files, ht]
  | cons f fs ih =>
    rcases f with ⟨fname, content⟩
    rw [decodesOk, List.all_cons, Bool.and_eq_true] at hpre
    obtain ⟨hf, hfs⟩ := hpre
    by_cases ht2 : endsWith ".txt".data fname = true
    · have hs : content.isSome = true := by
        rw [ht2] at hf; simpa using hf
      obtain ⟨lines, rfl⟩ : ∃ l, content = some l := by
        cases content with
        | none => cases hs
        | some l => exact ⟨l, rfl⟩
      simp only [List.cons_append, process_uploaded_files, ht2, if_true]
      exact ih _ hfs
    · simp only [List.cons_append, process_uploaded_files, ht2, if_false]
      exact ih st hfs

/-- C5 as claimed is false: with an undecodable `a.txt` first in the
folder, the qualifying, decodable `b.txt` after it — which alone yields a
referral, a written output and a removal — is never scanned: the run
produces no effect at all and stops at `a.txt`. -/
theorem c5_counterexample :
    process_uploaded_files
        [("a.txt".data, none),
         ("b.txt".data, some ["[01/02/23, 3:45 PM] Bob: try it".data])] ⟨[], [], []⟩ =
      (⟨[], [], []⟩, some "a.txt".data) ∧
    process_uploaded_files
        [("b.txt".data, some ["[01/02/23, 3:45 PM] Bob: try it".data])] ⟨[], [], []⟩ =
      (⟨[("b.json".data,
          [⟨"Bob".data, "Unknown Business".data, "No Contact Found".data, "try it".data⟩])],
        [("b.csv".data,
          [⟨"Bob".data, "Unknown Business".data, "No Contact Found".data, "try it".data⟩])],
        ["b.txt".data]⟩, none) := by
  decide

theorem c5_decode_failure_aborts_batch_witness :
    decodesOk [("ok.txt".data, some [])] = true ∧
    endsWith ".txt".data "bad.txt".data = true ∧
    process_uploaded_files
        [("ok.txt".data, some []), ("bad.txt".data, none), ("later.txt".data, some [])]
        ⟨[], [], []⟩ =
      ((process_uploaded_files [("ok.txt".data, some [])] ⟨[], [], []⟩).1,
       some "bad.txt".data) :=
  ⟨by decide, by decide,
   c5_decode_failure_aborts_batch [("ok.txt".data, some [])] "bad.txt".data
     [("later.txt".data, some [])] ⟨[], [], []⟩ (by decide) (by decide)⟩

/-- C8: every qualifying `.txt` file whose contents decode is removed
from the upload folder once the loop reaches it (all earlier `.txt`
entries decoding), whether or not any referrals were found in it. -/
theorem c8_source_file_removed (pre : List UploadFile) (name : List Char)
    (lines : List (List Char)) (post : List UploadFile) (st : BatchState)
    (hpre : decodesOk pre = true) (ht : endsWith ".txt".data name = true) :
    name ∈ (process_uploaded_files (pre ++ (name, some lines) :: post) st).1.removed := by
  induction pre generalizing st with
  | nil =>
    simp only [List.nil_append, process_uploaded_files, ht, if_true]
    apply removed_mono
    simp
  | cons f fs ih =>
    rcases f with ⟨fname, content⟩
    rw [decodesOk, List.all_cons, Bool.and_eq_true] at hpre
    obtain ⟨hf, hfs⟩ := hpre
    by_cases ht2 : endsWith ".txt".data fname = true
    · have hs : content.isSome = true := by
        rw [ht2] at hf; simpa using hf
      obtain ⟨l, rfl⟩ : ∃ l, content = some l := by
        cases content with
        | none => cases hs
        | some l => exact ⟨l, rfl⟩
      simp only [List.cons_append, process_uploaded_files, ht2, if_true]
      exact ih _ hfs
    · simp only [List.cons_append, process_uploaded_files, ht2, if_false]
      exact ih st hfs

theorem c8_source_file_removed_witness :
    decodesOk [] = true ∧
    endsWith ".txt".data "c.txt".data = true ∧
    extract_service_referrals ["hello".data] = [] ∧
    "c.txt".data ∈
      (process_uploaded_files [("c.txt".data, some ["hello".data])] ⟨[], [], []⟩).1.removed :=
  ⟨by decide, by decide, by decide,
   c8_source_file_removed [] "c.txt".data ["hello".data] [] ⟨[], [], []⟩
     (by decide) (by decide)⟩

/-! ## Inversion of the per-line processing -/

theorem processLine_some (line : List Char) (r : Referral)
    (h : processLine line = some r) :
    lineSearch line = some (r.sender, r.message) ∧
    r.business_name = (find_business_first r.message).getD "Unknown Business".data ∧
    r.contact = (find_phone_numbers_first r.message).getD "No Contact Found".data ∧
    keywords.any (fun k => containsSeq k (pyLower r.message)) = true := by
  unfold processLine at h
  split at h
  · cases h
  · rename_i sm sender message heq
    split at h
    · rename_i hkw
      injection h with h'
      subst h'
      exact ⟨heq, rfl, rfl, hkw⟩
    · cases h

theorem mem_extract (lines : List (List Char)) (r : Referral) :
    r ∈ extract_service_referrals lines ↔
      ∃ line ∈ lines, processLine line = some r := by
  simp [extract_service_referrals, List.mem_filterMap]

/-! ## Claim C10: the sender/message split -/

theorem dropWhile_head_or (P : Char → Bool) (t : List Char) :
    t.dropWhile P = [] ∨ ∃ x xs, t.dropWhile P = x :: xs ∧ P x = false := by
  induction t with
  | nil => exact Or.inl rfl
  | cons c cs ih =>
    by_cases h : P c = true
    · simpa [List.dropWhile_cons, h] using ih
    · exact Or.inr ⟨c, cs, by simp [List.dropWhile_cons, h], by simpa using h⟩

theorem splitColonSpace_spec : ∀ l s m, splitColonSpace l = some (s, m) →
    containsSeq [':', ' '] s = false ∧
    ∃ suf, l = s ++ ':' :: ' ' :: (m ++ suf) ∧ (suf = [] ∨ suf.head? = some '\n') := by
  intro l
  induction l with
  | nil => intro s m h; cases h
  | cons c rest ih =>
    intro s m h
    rw [splitColonSpace] at h
    by_cases h1 : c = ':' ∧ rest.head? = some ' '
    · rw [if_pos h1] at h
      obtain ⟨hc, hh⟩ := h1
      injection h with h'
      injection h' with hs hm
      obtain ⟨t, rfl⟩ : ∃ t, rest = ' ' :: t := by
        cases rest with
        | nil => cases hh
        | cons x xs => exact ⟨xs, by injection hh with hx; rw [hx]⟩
      subst hc
      subst hs
      refine ⟨rfl, t.dropWhile (fun ch => ch ≠ '\n'), ?_, ?_⟩
      · simp only [List.nil_append, List.tail_cons] at hm ⊢
        rw [← hm, List.takeWhile_append_dropWhile]
      · rcases dropWhile_head_or (fun ch => ch ≠ '\n') t with h0 | ⟨x, xs, hxs, hx⟩
        · exact Or.inl h0
        · right
          rw [hxs]
          simp only [List.head?_cons, Option.some.injEq]
          simpa using hx
    · rw [if_neg h1] at h
      by_cases h2 : c = '\n'
      · rw [if_pos h2] at h; cases h
      · rw [if_neg h2] at h
        rcases Option.map_eq_some'.mp h with ⟨⟨s', m'⟩, hsm, hpair⟩
        injection hpair with hps hpm
        obtain ⟨ihc, suf, hdec, hsuf⟩ := ih s' m' hsm
        subst hpm
        refine ⟨?_, suf, by rw [← hps, hdec]; rfl, hsuf⟩
        rw [← hps]
        rw [containsSeq]
        rw [Bool.or_eq_false_iff]
        refine ⟨?_, ihc⟩
        rw [startsWith]
        rw [Bool.and_eq_false_iff]
        by_cases hc : c = ':'
        · right
          cases s' with
          | nil => rfl
          | cons x s'' =>
            have hx : rest.head? = some x := by rw [hdec]; rfl
            have hxne : ¬(' ' = x) := by
              intro hsp
              exact h1 ⟨hc, by rw [hx, ← hsp]⟩
            rw [startsWith]
            rw [Bool.and_eq_false_iff]
            exact Or.inl (by simpa using hxne)
        · exact Or.inl (by simpa using fun hx => hc hx.symm)

theorem minuteTail_decomp (l rem : List Char) (h : minuteTail l = some rem) :
    ∃ mid, l = mid ++ ']' :: ' ' :: rem := by
  unfold minuteTail at h
  split at h
  · rename_i m1 m2 x y rest
    split at h
    · injection h with h'
      exact ⟨[m1, m2, ' ', x, y], by rw [h']; rfl⟩
    · cases h
  · cases h

theorem hourTail_decomp (l rem : List Char) (h : hourTail l = some rem) :
    ∃ mid, l = mid ++ ']' :: ' ' :: rem := by
  unfold hourTail at h
  split at h
  · rename_i a rest
    split at h
    · obtain ⟨mid, hmid⟩ := minuteTail_decomp _ _ h
      exact ⟨a :: ':' :: mid, by rw [hmid]; rfl⟩
    · cases h
  · rename_i a b rest hne
    split at h
    · obtain ⟨mid, hmid⟩ := minuteTail_decomp _ _ h
      exact ⟨a :: b :: ':' :: mid, by rw [hmid]; rfl⟩
    · cases h
  · cases h

theorem timestampTail_decomp (l rem : List Char) (h : timestampTail l = some rem) :
    ∃ mid, l = mid ++ ']' :: ' ' :: rem := by
  unfold timestampTail at h
  split at h
  · rename_i d1 d2 d3 d4 d5 d6 rest
    split at h
    · obtain ⟨mid, hmid⟩ := hourTail_decomp _ _ h
      exact ⟨d1 :: d2 :: '/' :: d3 :: d4 :: '/' :: d5 :: d6 :: ',' :: ' ' :: mid,
        by rw [hmid]; rfl⟩
    · cases h
  · cases h

theorem lineSearch_decomp : ∀ line s m, lineSearch line = some (s, m) →
    containsSeq [':', ' '] s = false ∧
    ∃ pre suf, line = pre ++ ']' :: ' ' :: (s ++ ':' :: ' ' :: (m ++ suf)) ∧
      (suf = [] ∨ suf.head? = some '\n') := by
  intro line
  induction line with
  | nil => intro s m h; cases h
  | cons c rest ih =>
    intro s m h
    rw [lineSearch] at h
    split at h
    · rename_i sm heq
      injection h with h'
      subst h'
      by_cases hc : c = '['
      · rw [if_pos hc] at heq
        rcases Option.bind_eq_some.mp heq with ⟨rem, hts, hsp⟩
        obtain ⟨hcs, suf, hdec, hsuf⟩ := splitColonSpace_spec rem s m hsp
        obtain ⟨mid, hmid⟩ := timestampTail_decomp rest rem hts
        refine ⟨hcs, c :: mid, suf, ?_, hsuf⟩
        rw [hmid, hdec]
        rfl
      · rw [if_neg hc] at heq
        cases heq
    · rename_i heq
      obtain ⟨hcs, pre, suf, hdec, hsuf⟩ := ih s m h
      exact ⟨hcs, c :: pre, suf, by rw [hdec]; rfl, hsuf⟩

/-- C10: in every record the extractor emits, the sender is the text
between the timestamp's closing `"] "` and the first following `": "` —
so the sender never contains `": "`, and when `": "` occurs more than once
everything after its first occurrence becomes the message (up to the
newline excluded by `.` in the pattern, reported here as the suffix). -/
theorem c10_sender_before_first_colon_space (lines : List (List Char)) (r : Referral)
    (hr : r ∈ extract_service_referrals lines) :
    containsSeq [':', ' '] r.sender = false ∧
    ∃ line ∈ lines, ∃ pre suf,
      line = pre ++ ']' :: ' ' :: (r.sender ++ ':' :: ' ' :: (r.message ++ suf)) ∧
      (suf = [] ∨ suf.head? = some '\n') := by
  rcases (mem_extract lines r).mp hr with ⟨line, hline, hp⟩
  obtain ⟨hsearch, -, -, -⟩ := processLine_some line r hp
  obtain ⟨hcs, pre, suf, hdec, hsuf⟩ := lineSearch_decomp line r.sender r.message hsearch
  exact ⟨hcs, line, hline, pre, suf, hdec, hsuf⟩

theorem c10_sender_before_first_colon_space_witness :
    (⟨"A B".data, "Unknown Business".data, "No Contact Found".data, "c: great stuff".data⟩ : Referral) ∈
      extract_service_referrals ["[01/02/23, 3:45 PM] A B: c: great stuff".data] ∧
    (containsSeq [':', ' '] "A B".data = false ∧
     ∃ line ∈ ["[01/02/23, 3:45 PM] A B: c: great stuff".data], ∃ pre suf,
       line = pre ++ ']' :: ' ' :: ("A B".data ++ ':' :: ' ' :: ("c: great stuff".data ++ suf)) ∧
       (suf = [] ∨ suf.head? = some '\n')) :=
  ⟨by decide,
   c10_sender_before_first_colon_space ["[01/02/23, 3:45 PM] A B: c: great stuff".data]
     ⟨"A B".data, "Unknown Business".data, "No Contact Found".data, "c: great stuff".data⟩
     (by decide)⟩

/-! ## Claim C1: only shaped lines produce records -/

theorem splitColonSpace_hasColonSpace :
    ∀ l s m, splitColonSpace l = some (s, m) → hasColonSpace l = true := by
  intro l
  induction l with
  | nil => intro s m h; cases h
  | cons c rest ih =>
    intro s m h
    rw [splitColonSpace] at h
    by_cases h1 : c = ':' ∧ rest.head? = some ' '
    · obtain ⟨hc, hh⟩ := h1
      obtain ⟨t, rfl⟩ : ∃ t, rest = ' ' :: t := by
        cases rest with
        | nil => cases hh
        | cons x xs => exact ⟨xs, by injection hh with hx; rw [hx]⟩
      subst hc
      rw [hasColonSpace]
      rw [List.takeWhile_cons]
      rw [List.takeWhile_cons]
      simp [containsSeq, startsWith]
    · rw [if_neg h1] at h
      by_cases h2 : c = '\n'
      · rw [if_pos h2] at h; cases h
      · rw [if_neg h2] at h
        rcases Option.map_eq_some'.mp h with ⟨⟨s', m'⟩, hsm, -⟩
        have ihr := ih s' m' hsm
        rw [hasColonSpace] at ihr ⊢
        simp only [List.takeWhile_cons, h2, ne_eq, not_false_eq_true, decide_True, if_true,
          containsSeq, Bool.or_eq_true]
        exact Or.inr ihr

theorem minuteTail_shape (l rem : List Char) (h : minuteTail l = some rem)
    (hrem : hasColonSpace rem = true) : minuteShape markerClass l = true := by
  unfold minuteTail at h
  split at h
  · rename_i m1 m2 x y rest
    split at h
    · rename_i hc
      injection h with h'
      subst h'
      simp [minuteShape, markerClass, hc.1, hc.2.1, hc.2.2.1, hc.2.2.2, hrem]
    · cases h
  · cases h

theorem hourTail_shape (l rem : List Char) (h : hourTail l = some rem)
    (hrem : hasColonSpace rem = true) : hourShape markerClass l = true := by
  unfold hourTail at h
  split at h
  · rename_i a rest
    split at h
    · rename_i hc
      simp [hourShape, hc, minuteTail_shape _ _ h hrem]
    · cases h
  · rename_i a b rest hne
    split at h
    · rename_i hc
      simp [hourShape, hc.1, hc.2, minuteTail_shape _ _ h hrem]
    · cases h
  · cases h

theorem timestampTail_shapeHere (rest rem : List Char) (h : timestampTail rest = some rem)
    (hrem : hasColonSpace rem = true) : shapeHere markerClass ('[' :: rest) = true := by
  unfold timestampTail at h
  split at h
  · rename_i d1 d2 d3 d4 d5 d6 rest'
    split at h
    · rename_i hc
      simp [shapeHere, hc.1, hc.2.1, hc.2.2.1, hc.2.2.2.1, hc.2.2.2.2.1, hc.2.2.2.2.2,
        hourTail_shape _ _ h hrem]
    · cases h
  · cases h

theorem lineSearch_hasShape : ∀ line s m, lineSearch line = some (s, m) →
    hasShape markerClass line = true := by
  intro line
  induction line with
  | nil => intro s m h; cases h
  | cons c rest ih =>
    intro s m h
    rw [lineSearch] at h
    split at h
    · rename_i sm heq
      by_cases hc : c = '['
      · rw [if_pos hc] at heq
        rcases Option.bind_eq_some.mp heq with ⟨rem, hts, hsp⟩
        subst hc
        rw [hasShape, Bool.or_eq_true]
        exact Or.inl (timestampTail_shapeHere rest rem hts
          (splitColonSpace_hasColonSpace rem _ _ hsp))
      · rw [if_neg hc] at heq
        cases heq
    · rw [hasShape, Bool.or_eq_true]
      exact Or.inr (ih _ _ h)

/-- C1 (amended): a line that nowhere contains the transcript-line
shape — bracketed `DD/MM/YY, H:MM` timestamp whose final two-character slot
is drawn from the character class `{A, P, M}` (not only the literal
markers `AM`/`PM`), followed by `sender: message` — contributes no record. -/
theorem c1_only_shaped_lines (line : List Char)
    (h : hasShape markerClass line = false) : processLine line = none := by
  cases hp : processLine line with
  | none => rfl
  | some r =>
    obtain ⟨hsearch, -, -, -⟩ := processLine_some line r hp
    rw [lineSearch_hasShape line _ _ hsearch] at h
    cases h

theorem c1_only_shaped_lines_witness :
    hasShape markerClass "hello".data = false ∧
    processLine "hello".data = none :=
  ⟨by decide, c1_only_shaped_lines "hello".data (by decide)⟩

/-- C1 as claimed is false: the code's meridiem slot is the character
class `[APM]{2}`, not the literal `AM`/`PM`, so the line
`"[01/02/23, 3:45 MM] Bob: call me"` — which does not carry the claimed
`AM|PM` marker anywhere — still produces a record. -/
theorem c1_counterexample :
    hasShape markerStrict "[01/02/23, 3:45 MM] Bob: call me".data = false ∧
    processLine "[01/02/23, 3:45 MM] Bob: call me".data =
      some ⟨"Bob".data, "Unknown Business".data, "No Contact Found".data, "call me".data⟩ := by
  decide

/-! ## Claim C4: the keyword gate -/

/-- C4: a line that matches the transcript-line pattern produces a
record exactly when its lower-cased message contains one of the eight fixed
keywords as a plain substring. -/
theorem c4_keyword_gate (line s m : List Char) (h : lineSearch line = some (s, m)) :
    (∃ r, processLine line = some r) ↔
      ∃ k ∈ keywords, ∃ pre post, pyLower m = pre ++ k ++ post := by
  have h2 : (∃ r, processLine line = some r) ↔
      keywords.any (fun k => containsSeq k (pyLower m)) = true := by
    unfold processLine
    rw [h]
    by_cases hkw : keywords.any (fun k => containsSeq k (pyLower m)) = true
    · simp [hkw]
    · simp [hkw]
  rw [h2, List.any_eq_true]
  constructor
  · rintro ⟨k, hk, hc⟩
    exact ⟨k, hk, (containsSeq_iff _ _).mp hc⟩
  · rintro ⟨k, hk, hc⟩
    exact ⟨k, hk, (containsSeq_iff _ _).mpr hc⟩

theorem c4_keyword_gate_witness :
    lineSearch "[01/02/23, 3:45 PM] Bob: no relevant words here".data =
      some ("Bob".data, "no relevant words here".data) ∧
    ((∃ r, processLine "[01/02/23, 3:45 PM] Bob: no relevant words here".data = some r) ↔
      ∃ k ∈ keywords, ∃ pre post,
        pyLower "no relevant words here".data = pre ++ k ++ post) :=
  ⟨by decide,
   c4_keyword_gate "[01/02/23, 3:45 PM] Bob: no relevant words here".data
     "Bob".data "no relevant words here".data (by decide)⟩

/-! ## Claim C2: the contact field -/

theorem take3_eq (l : List Char) (a b c : Char) (r : List Char)
    (h : take3 l = some (a, b, c, r)) :
    l = a :: b :: c :: r ∧ a.isDigit = true ∧ b.isDigit = true ∧ c.isDigit = true := by
  unfold take3 at h
  split at h
  · split at h
    · rename_i hd
      injection h with h'
      injection h' with h1 h'
      injection h' with h2 h'
      injection h' with h3 h4
      subst h1; subst h2; subst h3; subst h4
      exact ⟨rfl, hd.1, hd.2.1, hd.2.2⟩
    · cases h
  · cases h

theorem take4_eq (l : List Char) (a b c d : Char) (r : List Char)
    (h : take4 l = some (a, b, c, d, r)) :
    l = a :: b :: c :: d :: r ∧ a.isDigit = true ∧ b.isDigit = true ∧
      c.isDigit = true ∧ d.isDigit = true := by
  unfold take4 at h
  split at h
  · split at h
    · rename_i hd
      injection h with h'
      injection h' with h1 h'
      injection h' with h2 h'
      injection h' with h3 h'
      injection h' with h4 h5
      subst h1; subst h2; subst h3; subst h4; subst h5
      exact ⟨rfl, hd.1, hd.2.1, hd.2.2.1, hd.2.2.2⟩
    · cases h
  · cases h

theorem takeOptSep_true_eq (sepOk : Char → Bool) (l m r : List Char)
    (h : takeOptSep sepOk true l = some (m, r)) :
    ∃ s, m = [s] ∧ sepOk s = true ∧ l = s :: r := by
  unfold takeOptSep at h
  rw [if_pos rfl] at h
  split at h
  · rename_i s r'
    split at h
    · rename_i hs
      injection h with h'
      injection h' with h1 h2
      exact ⟨s, h1.symm, hs, by rw [h2]⟩
    · cases h
  · cases h

theorem takeOptSep_false_eq (sepOk : Char → Bool) (l m r : List Char)
    (h : takeOptSep sepOk false l = some (m, r)) :
    m = [] ∧ r = l := by
  unfold takeOptSep at h
  simp only [Bool.false_eq_true, if_false] at h
  injection h with h'
  injection h' with h1 h2
  exact ⟨h1.symm, h2.symm⟩

theorem altPhone_sound (s1 s2 : Bool) (l m r : List Char)
    (h : altPhone isSep s1 s2 l = some (m, r)) :
    l = m ++ r ∧ phoneShape m = true := by
  unfold altPhone at h
  split at h
  · cases h
  · rename_i a b c r1 h3
    split at h
    · cases h
    · rename_i m1 r2 hsep1
      split at h
      · cases h
      · rename_i d e f r3 h3'
        split at h
        · cases h
        · rename_i m2 r4 hsep2
          split at h
          · cases h
          · rename_i g i j k r5 h4
            injection h with h'
            injection h' with hm hr
            subst hm; subst hr
            obtain ⟨hl1, ha, hb, hc⟩ := take3_eq _ _ _ _ _ h3
            obtain ⟨hl3, hd, he, hf⟩ := take3_eq _ _ _ _ _ h3'
            obtain ⟨hl5, hg, hi, hj, hk⟩ := take4_eq _ _ _ _ _ _ h4
            cases s1 with
            | true =>
              obtain ⟨x1, hm1, hx1, hl2⟩ := takeOptSep_true_eq _ _ _ _ hsep1
              cases s2 with
              | true =>
                obtain ⟨x2, hm2, hx2, hl4⟩ := takeOptSep_true_eq _ _ _ _ hsep2
                subst hm1; subst hm2
                constructor
                · rw [hl1, hl2, hl3, hl4, hl5]; rfl
                · simp [phoneShape, ha, hb, hc, hx1, hd, he, hf, hx2, hg, hi, hj, hk]
              | false =>
                obtain ⟨hm2, hl4⟩ := takeOptSep_false_eq _ _ _ _ hsep2
                subst hm1; subst hm2
                constructor
                · rw [hl1, hl2, hl3, ← hl4, hl5]; rfl
                · simp [phoneShape, ha, hb, hc, hx1, hd, he, hf, hg, hi, hj, hk]
            | false =>
              obtain ⟨hm1, hl2⟩ := takeOptSep_false_eq _ _ _ _ hsep1
              cases s2 with
              | true =>
                obtain ⟨x2, hm2, hx2, hl4⟩ := takeOptSep_true_eq _ _ _ _ hsep2
                subst hm1; subst hm2
                constructor
                · rw [hl1, ← hl2, hl3, hl4, hl5]; rfl
                · simp [phoneShape, ha, hb, hc, hd, he, hf, hx2, hg, hi, hj, hk]
              | false =>
                obtain ⟨hm2, hl4⟩ := takeOptSep_false_eq _ _ _ _ hsep2
                subst hm1; subst hm2
                constructor
                · rw [hl1, ← hl2, hl3, ← hl4, hl5]; rfl
                · simp [phoneShape, ha, hb, hc, hd, he, hf, hg, hi, hj, hk]

theorem altPhone_complete (p r : List Char) (hp : phoneShape p = true) :
    ∃ s1 s2, altPhone isSep s1 s2 (p ++ r) = some (p, r) := by
  unfold phoneShape at hp
  split at hp
  · rename_i p0 p1 p2 p3 p4 p5 p6 p7 p8 p9
    simp only [Bool.and_eq_true, and_assoc] at hp
    obtain ⟨h0, h1, h2, h3, h4, h5, h6, h7, h8, h9⟩ := hp
    exact ⟨false, false, by
      simp [altPhone, take3, take4, takeOptSep, h0, h1, h2, h3, h4, h5, h6, h7, h8, h9]⟩
  · rename_i p0 p1 p2 p3 p4 p5 p6 p7 p8 p9 p10
    rw [Bool.or_eq_true] at hp
    rcases hp with hp | hp
    · simp only [Bool.and_eq_true, and_assoc] at hp
      obtain ⟨h0, h1, h2, h3, h4, h5, h6, h7, h8, h9, h10⟩ := hp
      exact ⟨true, false, by
        simp [altPhone, take3, take4, takeOptSep, h0, h1, h2, h3, h4, h5, h6, h7, h8, h9, h10]⟩
    · simp only [Bool.and_eq_true, and_assoc] at hp
      obtain ⟨h0, h1, h2, h3, h4, h5, h6, h7, h8, h9, h10⟩ := hp
      exact ⟨false, true, by
        simp [altPhone, take3, take4, takeOptSep, h0, h1, h2, h3, h4, h5, h6, h7, h8, h9, h10]⟩
  · rename_i p0 p1 p2 p3 p4 p5 p6 p7 p8 p9 p10 p11
    simp only [Bool.and_eq_true, and_assoc] at hp
    obtain ⟨h0, h1, h2, h3, h4, h5, h6, h7, h8, h9, h10, h11⟩ := hp
    exact ⟨true, true, by
      simp [altPhone, take3, take4, takeOptSep, h0, h1, h2, h3, h4, h5, h6, h7, h8, h9, h10, h11]⟩
  · cases hp

theorem phoneTry_some (s1 s2 : Bool) (l m : List Char) (h : phoneTry s1 s2 l = some m) :
    ∃ r, altPhone isSep s1 s2 l = some (m, r) ∧ endBoundary r = true := by
  unfold phoneTry at h
  split at h
  · rename_i m' r heq
    split at h
    · rename_i hend
      injection h with h'
      subst h'
      exact ⟨r, heq, hend⟩
    · cases h
  · cases h

theorem phoneTry_of_alt (s1 s2 : Bool) (l p r : List Char)
    (halt : altPhone isSep s1 s2 l = some (p, r)) (hend : endBoundary r = true) :
    phoneTry s1 s2 l = some p := by
  unfold phoneTry
  rw [halt]
  simp [hend]

theorem phoneAt_some (l m : List Char) (h : phoneAt l = some m) :
    ∃ r, l = m ++ r ∧ phoneShape m = true ∧ endBoundary r = true := by
  unfold phoneAt at h
  have hcase : ∃ s1 s2, phoneTry s1 s2 l = some m := by
    split at h
    · rename_i heq; injection h with h'; subst h'; exact ⟨true, true, heq⟩
    · split at h
      · rename_i heq; injection h with h'; subst h'; exact ⟨true, false, heq⟩
      · split at h
        · rename_i heq; injection h with h'; subst h'; exact ⟨false, true, heq⟩
        · exact ⟨false, false, h⟩
  obtain ⟨s1, s2, ht⟩ := hcase
  obtain ⟨r, halt, hend⟩ := phoneTry_some s1 s2 l m ht
  obtain ⟨hdec, hshape⟩ := altPhone_sound s1 s2 l m r halt
  exact ⟨r, hdec, hshape, hend⟩

theorem phoneAt_none_all (l : List Char) (h : phoneAt l = none) :
    phoneTry true true l = none ∧ phoneTry true false l = none ∧
    phoneTry false true l = none ∧ phoneTry false false l = none := by
  unfold phoneAt at h
  split at h
  · cases h
  · rename_i h1
    split at h
    · cases h
    · rename_i h2
      split at h
      · cases h
      · rename_i h3
        exact ⟨h1, h2, h3, h⟩

theorem phoneAt_none (l : List Char) (h : phoneAt l = none) :
    ∀ p r, l = p ++ r → phoneShape p = true → endBoundary r = true → False := by
  intro p r hdec hp hend
  obtain ⟨s1, s2, halt⟩ := altPhone_complete p r hp
  have htry : phoneTry s1 s2 (p ++ r) = some p := phoneTry_of_alt s1 s2 _ p r halt hend
  subst hdec
  obtain ⟨h1, h2, h3, h4⟩ := phoneAt_none_all _ h
  cases s1 <;> cases s2
  · rw [h4] at htry; cases htry
  · rw [h3] at htry; cases htry
  · rw [h2] at htry; cases htry
  · rw [h1] at htry; cases htry

theorem okBefore_nil (prev : Option Char) : okBefore prev [] = startBoundary prev := rfl

theorem okBefore_cons (prev : Option Char) (c : Char) (pre : List Char) :
    okBefore prev (c :: pre) = okBefore (some c) pre := rfl

theorem findPhoneAux_some : ∀ (l : List Char) (prev : Option Char) (m : List Char),
    findPhoneAux prev l = some m →
    ∃ pre post, l = pre ++ m ++ post ∧ phoneShape m = true ∧ endBoundary post = true ∧
      okBefore prev pre = true ∧
      ∀ pre2 p2 post2, l = pre2 ++ p2 ++ post2 → phoneShape p2 = true →
        endBoundary post2 = true → okBefore prev pre2 = true →
        pre.length ≤ pre2.length := by
  intro l
  induction l with
  | nil => intro prev m h; cases h
  | cons c rest ih =>
    intro prev m h
    rw [findPhoneAux] at h
    by_cases hb : startBoundary prev = true
    · rw [if_pos hb] at h
      cases hpa : phoneAt (c :: rest) with
      | some m' =>
        rw [hpa] at h
        injection h with h'
        subst h'
        obtain ⟨r, hdec, hshape, hend⟩ := phoneAt_some _ _ hpa
        refine ⟨[], r, by simpa using hdec, hshape, hend, ?_, ?_⟩
        · simpa [okBefore_nil] using hb
        · intro pre2 p2 post2 _ _ _ _
          exact Nat.zero_le _
      | none =>
        rw [hpa] at h
        obtain ⟨pre, post, hdec, hshape, hend, hok, hmin⟩ := ih (some c) m h
        refine ⟨c :: pre, post, by rw [hdec]; rfl, hshape, hend, ?_, ?_⟩
        · rw [okBefore_cons]; exact hok
        · intro pre2 p2 post2 hdec2 hsh2 hend2 hok2
          cases pre2 with
          | nil =>
            exact (phoneAt_none _ hpa p2 post2 (by simpa using hdec2) hsh2 hend2).elim
          | cons x pre2' =>
            injection hdec2 with hx hrest
            subst hx
            rw [okBefore_cons] at hok2
            have := hmin pre2' p2 post2 hrest hsh2 hend2 hok2
            simpa [List.length_cons] using Nat.succ_le_succ this
    · rw [if_neg hb] at h
      obtain ⟨pre, post, hdec, hshape, hend, hok, hmin⟩ := ih (some c) m h
      refine ⟨c :: pre, post, by rw [hdec]; rfl, hshape, hend, ?_, ?_⟩
      · rw [okBefore_cons]; exact hok
      · intro pre2 p2 post2 hdec2 hsh2 hend2 hok2
        cases pre2 with
        | nil =>
          rw [okBefore_nil] at hok2
          exact absurd hok2 hb
        | cons x pre2' =>
          injection hdec2 with hx hrest
          subst hx
          rw [okBefore_cons] at hok2
          have := hmin pre2' p2 post2 hrest hsh2 hend2 hok2
          simpa [List.length_cons] using Nat.succ_le_succ this

theorem findPhoneAux_none : ∀ (l : List Char) (prev : Option Char),
    findPhoneAux prev l = none →
    ∀ pre p post, l = pre ++ p ++ post → phoneShape p = true → endBoundary post = true →
      okBefore prev pre = true → False := by
  intro l
  induction l with
  | nil =>
    intro prev _ pre p post hdec hp _ _
    have hnil : pre ++ p ++ post = [] := hdec.symm
    rcases List.append_eq_nil.mp hnil with ⟨h1, -⟩
    rcases List.append_eq_nil.mp h1 with ⟨-, hpn⟩
    subst hpn
    cases hp
  | cons c rest ih =>
    intro prev h pre p post hdec hp hend hok
    rw [findPhoneAux] at h
    by_cases hb : startBoundary prev = true
    · rw [if_pos hb] at h
      cases hpa : phoneAt (c :: rest) with
      | some m' => rw [hpa] at h; cases h
      | none =>
        rw [hpa] at h
        cases pre with
        | nil => exact phoneAt_none _ hpa p post (by simpa using hdec) hp hend
        | cons x pre' =>
          injection hdec with hx hrest
          subst hx
          rw [okBefore_cons] at hok
          exact ih (some c) h pre' p post hrest hp hend hok
    · rw [if_neg hb] at h
      cases pre with
      | nil =>
        rw [okBefore_nil] at hok
        exact absurd hok hb
      | cons x pre' =>
        injection hdec with hx hrest
        subst hx
        rw [okBefore_cons] at hok
        exact ih (some c) h pre' p post hrest hp hend hok

/-- C2 (amended): in every record the extractor emits, the contact is
the first substring of the message — scanning left to right — that matches
the 3-3-4 phone shape with an optional separator among `'-'`, `'.'` or a
single whitespace character between groups **and** is delimited by word
boundaries (no letter, digit or underscore directly before or after); when
no such substring exists the contact is the sentinel `"No Contact Found"`. -/
theorem c2_contact_field (lines : List (List Char)) (r : Referral)
    (hr : r ∈ extract_service_referrals lines) :
    (∃ pre post, r.message = pre ++ r.contact ++ post ∧ phoneShape r.contact = true ∧
      endBoundary post = true ∧ okBefore none pre = true ∧
      ∀ pre2 p2 post2, r.message = pre2 ++ p2 ++ post2 → phoneShape p2 = true →
        endBoundary post2 = true → okBefore none pre2 = true →
        pre.length ≤ pre2.length) ∨
    (r.contact = "No Contact Found".data ∧
      ∀ pre p post, r.message = pre ++ p ++ post → phoneShape p = true →
        endBoundary post = true → okBefore none pre = true → False) := by
  rcases (mem_extract lines r).mp hr with ⟨line, -, hp⟩
  obtain ⟨-, -, hcontact, -⟩ := processLine_some line r hp
  unfold find_phone_numbers_first at hcontact
  cases hfind : findPhoneAux none r.message with
  | some ph =>
    rw [hfind] at hcontact
    simp only [Option.getD_some] at hcontact
    subst hcontact
    exact Or.inl (findPhoneAux_some _ none _ hfind)
  | none =>
    rw [hfind] at hcontact
    simp only [Option.getD_none] at hcontact
    exact Or.inr ⟨hcontact, fun pre p post hdec hp' hend hok =>
      findPhoneAux_none _ none hfind pre p post hdec hp' hend hok⟩

theorem c2_contact_field_witness :
    (⟨"Ann".data, "Call John".data, "555-123-4567".data,
      "Call John 555-123-4567 now".data⟩ : Referral) ∈
      extract_service_referrals ["[01/02/23, 3:45 PM] Ann: Call John 555-123-4567 now".data] ∧
    ((∃ pre post, ("Call John 555-123-4567 now".data : List Char) =
        pre ++ "555-123-4567".data ++ post ∧ phoneShape "555-123-4567".data = true ∧
        endBoundary post = true ∧ okBefore none pre = true ∧
        ∀ pre2 p2 post2, ("Call John 555-123-4567 now".data : List Char) =
          pre2 ++ p2 ++ post2 → phoneShape p2 = true → endBoundary post2 = true →
          okBefore none pre2 = true → pre.length ≤ pre2.length) ∨
      (("555-123-4567".data : List Char) = "No Contact Found".data ∧
        ∀ pre p post, ("Call John 555-123-4567 now".data : List Char) =
          pre ++ p ++ post → phoneShape p = true → endBoundary post = true →
          okBefore none pre = true → False)) :=
  ⟨by decide,
   c2_contact_field ["[01/02/23, 3:45 PM] Ann: Call John 555-123-4567 now".data]
     ⟨"Ann".data, "Call John".data, "555-123-4567".data,
      "Call John 555-123-4567 now".data⟩ (by decide)⟩

/-- C2 as claimed is false: the claimed separator set (`'-'`, `'.'`,
space) and the absence of any word-boundary condition both contradict the
code (`[-.\s]` and `\b`).  In the message
`"call x555-123-4567 and 555\t123\t4567"` the first substring of the
claimed shape is `"555-123-4567"`, yet the emitted contact is the
tab-separated `"555\t123\t4567"`: the code skips the first candidate
because `'x'` sits on its word boundary, and accepts tabs as separators. -/
theorem c2_counterexample :
    processLine "[01/02/23, 3:45 PM] Bob: call x555-123-4567 and 555\t123\t4567".data =
      some ⟨"Bob".data, "Unknown Business".data, "555\t123\t4567".data,
            "call x555-123-4567 and 555\t123\t4567".data⟩ ∧
    claimFirstPhone "call x555-123-4567 and 555\t123\t4567".data =
      some "555-123-4567".data ∧
    ("555\t123\t4567".data : List Char) ≠ "555-123-4567".data := by
  decide

/-! ## Claim C3: the business-name field -/

theorem capTail_cons (sepOk : Char → Bool) (c : Char) (rest : List Char) :
    capTail sepOk (c :: rest) =
      if c.isLower = true then c :: capTail sepOk rest
      else if sepOk c = true then
        match rest with
        | u :: c2 :: rest2 =>
          if u.isUpper = true ∧ c2.isLower = true then c :: u :: c2 :: capTail sepOk rest2
          else []
        | _ => []
      else [] := by
  cases rest with
  | nil => rfl
  | cons a rest' =>
    cases rest' with
    | nil => rfl
    | cons b r2 => rfl

theorem capCont_nil (sepOk : Char → Bool) : capCont sepOk [] = true := rfl

theorem capCont_cons (sepOk : Char → Bool) (c : Char) (rest : List Char) :
    capCont sepOk (c :: rest) =
      if c.isLower = true then capCont sepOk rest
      else if sepOk c = true then
        match rest with
        | u :: c2 :: rest2 => u.isUpper && c2.isLower && capCont sepOk rest2
        | _ => false
      else false := by
  cases rest with
  | nil => rfl
  | cons a rest' =>
    cases rest' with
    | nil => rfl
    | cons b r2 => rfl

theorem capTail_capCont (sepOk : Char → Bool) (l : List Char) :
    capCont sepOk (capTail sepOk l) = true := by
  induction l using capTail.induct sepOk with
  | case1 => rfl
  | case2 c rest hlow ih => simp [capTail_cons, capCont_cons, hlow, ih]
  | case3 c hnl hsep u c2 rest2 huc ih =>
    simp [capTail_cons, capCont_cons, hnl, hsep, huc.1, huc.2, ih]
  | case4 c hnl hsep u c2 rest2 huc =>
    simp [capTail_cons, capCont_cons, capCont_nil, hnl, hsep, huc]
  | case5 c rest hnl hsep hshape =>
    cases rest with
    | nil => simp [capTail_cons, capCont_cons, capCont_nil, hnl, hsep]
    | cons a rest' =>
      cases rest' with
      | nil => simp [capTail_cons, capCont_cons, capCont_nil, hnl, hsep]
      | cons b r2 => exact (hshape a b r2 rfl).elim
  | case6 c rest hnl hns => simp [capTail_cons, capCont_cons, capCont_nil, hnl, hns]

theorem capTail_decomp (sepOk : Char → Bool) (l : List Char) :
    ∃ r, l = capTail sepOk l ++ r := by
  induction l using capTail.induct sepOk with
  | case1 => exact ⟨[], rfl⟩
  | case2 c rest hlow ih =>
    obtain ⟨r, hr⟩ := ih
    exact ⟨r, by rw [capTail_cons, if_pos hlow, List.cons_append, ← hr]⟩
  | case3 c hnl hsep u c2 rest2 huc ih =>
    obtain ⟨r, hr⟩ := ih
    refine ⟨r, ?_⟩
    rw [capTail_cons, if_neg hnl, if_pos hsep]
    simp only [if_pos huc]
    rw [List.cons_append, List.cons_append, List.cons_append, ← hr]
  | case4 c hnl hsep u c2 rest2 huc =>
    refine ⟨c :: u :: c2 :: rest2, ?_⟩
    rw [capTail_cons, if_neg hnl, if_pos hsep]
    simp only [if_neg huc]
    rfl
  | case5 c rest hnl hsep hshape =>
    cases rest with
    | nil => exact ⟨[c], by simp [capTail_cons, hnl, hsep]⟩
    | cons a rest' =>
      cases rest' with
      | nil => exact ⟨[c, a], by simp [capTail_cons, hnl, hsep]⟩
      | cons b r2 => exact (hshape a b r2 rfl).elim
  | case6 c rest hnl hns => exact ⟨c :: rest, by simp [capTail_cons, hnl, hns]⟩

theorem capTail_max (sepOk : Char → Bool) :
    ∀ t, capCont sepOk t = true →
      ∀ r, t.length ≤ (capTail sepOk (t ++ r)).length := by
  intro t
  induction t using capCont.induct sepOk with
  | case1 => intro _ r; exact Nat.zero_le _
  | case2 c rest hlow ih =>
    intro h r
    rw [capCont_cons, if_pos hlow] at h
    rw [List.cons_append, capTail_cons, if_pos hlow]
    simpa [List.length_cons] using Nat.succ_le_succ (ih h r)
  | case3 c hnl hsep u c2 rest2 ih =>
    intro h r
    rw [capCont_cons, if_neg hnl, if_pos hsep] at h
    simp only [Bool.and_eq_true, and_assoc] at h
    obtain ⟨hu, hc2, hcont⟩ := h
    rw [List.cons_append, List.cons_append, List.cons_append, capTail_cons, if_neg hnl,
      if_pos hsep]
    simp only [if_pos (And.intro hu hc2)]
    simpa [List.length_cons] using
      Nat.succ_le_succ (Nat.succ_le_succ (Nat.succ_le_succ (ih hcont r)))
  | case4 c rest hnl hsep hshape =>
    intro h r
    rw [capCont_cons, if_neg hnl, if_pos hsep] at h
    cases rest with
    | nil => cases h
    | cons a rest' =>
      cases rest' with
      | nil => cases h
      | cons b r2 => exact (hshape a b r2 rfl).elim
  | case5 c rest hnl hns =>
    intro h r
    rw [capCont_cons, if_neg hnl, if_neg hns] at h
    cases h

theorem capAt_some (sepOk : Char → Bool) (l b : List Char) (h : capAt sepOk l = some b) :
    ∃ post, l = b ++ post ∧ capRunShape sepOk b = true ∧
      ∀ b2 post2, l = b2 ++ post2 → capRunShape sepOk b2 = true →
        b2.length ≤ b.length := by
  unfold capAt at h
  split at h
  · rename_i u c rest
    split at h
    · rename_i huc
      injection h with h'
      subst h'
      obtain ⟨r, hr⟩ := capTail_decomp sepOk rest
      refine ⟨r, by rw [List.cons_append, List.cons_append, ← hr], ?_, ?_⟩
      · rw [capRunShape]
        simp [huc.1, huc.2, capTail_capCont]
      · intro b2 post2 hdec2 hsh2
        cases b2 with
        | nil => simp [capRunShape] at hsh2
        | cons u2 b2' =>
          cases b2' with
          | nil => simp [capRunShape] at hsh2
          | cons c2 t =>
            rw [capRunShape] at hsh2
            simp only [Bool.and_eq_true, and_assoc] at hsh2
            obtain ⟨-, -, hcont⟩ := hsh2
            injection hdec2 with h1 hdec2'
            injection hdec2' with h2 hrest
            simp only [List.append_eq] at hrest
            have hle := capTail_max sepOk t hcont post2
            rw [← hrest] at hle
            simpa [List.length_cons] using Nat.succ_le_succ (Nat.succ_le_succ hle)
    · cases h
  · cases h

theorem capAt_none (sepOk : Char → Bool) (l : List Char) (h : capAt sepOk l = none) :
    ∀ b post, l = b ++ post → capRunShape sepOk b = true → False := by
  intro b post hdec hsh
  cases b with
  | nil => simp [capRunShape] at hsh
  | cons u b' =>
    cases b' with
    | nil => simp [capRunShape] at hsh
    | cons c t =>
      rw [capRunShape] at hsh
      simp only [Bool.and_eq_true, and_assoc] at hsh
      obtain ⟨hu, hc, -⟩ := hsh
      subst hdec
      rw [List.cons_append, List.cons_append] at h
      simp [capAt, hu, hc] at h

theorem findCapRun_some : ∀ (sepOk : Char → Bool) (l b : List Char),
    findCapRun sepOk l = some b →
    ∃ pre post, l = pre ++ b ++ post ∧ capRunShape sepOk b = true ∧
      (∀ b2 post2, l = pre ++ b2 ++ post2 → capRunShape sepOk b2 = true →
        b2.length ≤ b.length) ∧
      ∀ pre2 p2 post2, l = pre2 ++ p2 ++ post2 → capRunShape sepOk p2 = true →
        pre.length ≤ pre2.length := by
  intro sepOk l
  induction l with
  | nil => intro b h; cases h
  | cons c rest ih =>
    intro b h
    rw [findCapRun] at h
    split at h
    · rename_i b' hca
      injection h with h'
      subst h'
      obtain ⟨post, hdec, hsh, hmax⟩ := capAt_some sepOk _ _ hca
      refine ⟨[], post, by simpa using hdec, hsh, ?_, ?_⟩
      · intro b2 post2 hdec2 hsh2
        exact hmax b2 post2 (by simpa using hdec2) hsh2
      · intro pre2 p2 post2 _ _
        exact Nat.zero_le _
    · rename_i hca
      obtain ⟨pre, post, hdec, hsh, hmax, hmin⟩ := ih b h
      refine ⟨c :: pre, post, by rw [hdec]; rfl, hsh, ?_, ?_⟩
      · intro b2 post2 hdec2 hsh2
        injection hdec2 with _ hrest
        exact hmax b2 post2 hrest hsh2
      · intro pre2 p2 post2 hdec2 hsh2
        cases pre2 with
        | nil =>
          exact (capAt_none sepOk _ hca p2 post2 (by simpa using hdec2) hsh2).elim
        | cons x pre2' =>
          injection hdec2 with _ hrest
          have := hmin pre2' p2 post2 hrest hsh2
          simpa [List.length_cons] using Nat.succ_le_succ this

theorem findCapRun_none : ∀ (sepOk : Char → Bool) (l : List Char),
    findCapRun sepOk l = none →
    ∀ pre b post, l = pre ++ b ++ post → capRunShape sepOk b = true → False := by
  intro sepOk l
  induction l with
  | nil =>
    intro _ pre b post hdec hsh
    have hnil : pre ++ b ++ post = [] := hdec.symm
    rcases List.append_eq_nil.mp hnil with ⟨h1, -⟩
    rcases List.append_eq_nil.mp h1 with ⟨-, hbn⟩
    subst hbn
    simp [capRunShape] at hsh
  | cons c rest ih =>
    intro h pre b post hdec hsh
    rw [findCapRun] at h
    split at h
    · cases h
    · rename_i hca
      cases pre with
      | nil => exact capAt_none sepOk _ hca b post (by simpa using hdec) hsh
      | cons x pre' =>
        injection hdec with _ hrest
        exact ih h pre' b post hrest hsh

/-- C3 (amended): in every record the extractor emits, the business
name is the first (leftmost, and at that position longest) substring of the
message matching the capitalized-word-run shape — words of an uppercase
letter followed by one or more lowercase letters, consecutive words
separated by a single **whitespace** character (the code's `\s`, not only a
space) — and the sentinel `"Unknown Business"` when no such substring
exists.  A bare capital (such as `I`) does not start a match. -/
theorem c3_business_name_field (lines : List (List Char)) (r : Referral)
    (hr : r ∈ extract_service_referrals lines) :
    (∃ pre post, r.message = pre ++ r.business_name ++ post ∧
      capRunShape isSpaceChar r.business_name = true ∧
      (∀ b2 post2, r.message = pre ++ b2 ++ post2 →
        capRunShape isSpaceChar b2 = true → b2.length ≤ r.business_name.length) ∧
      (∀ pre2 p2 post2, r.message = pre2 ++ p2 ++ post2 →
        capRunShape isSpaceChar p2 = true → pre.length ≤ pre2.length)) ∨
    (r.business_name = "Unknown Business".data ∧
      ∀ pre b post, r.message = pre ++ b ++ post →
        capRunShape isSpaceChar b = true → False) := by
  rcases (mem_extract lines r).mp hr with ⟨line, -, hp⟩
  obtain ⟨-, hbn, -, -⟩ := processLine_some line r hp
  unfold find_business_first at hbn
  cases hfind : findCapRun isSpaceChar r.message with
  | some b =>
    rw [hfind] at hbn
    simp only [Option.getD_some] at hbn
    subst hbn
    exact Or.inl (findCapRun_some isSpaceChar _ _ hfind)
  | none =>
    rw [hfind] at hbn
    simp only [Option.getD_none] at hbn
    exact Or.inr ⟨hbn, fun pre b post hdec hsh =>
      findCapRun_none isSpaceChar _ hfind pre b post hdec hsh⟩

theorem c3_business_name_field_witness :
    (⟨"Ann".data, "Blue Sky Plumbing".data, "No Contact Found".data,
      "recommend Blue Sky Plumbing today".data⟩ : Referral) ∈
      extract_service_referrals
        ["[01/02/23, 3:45 PM] Ann: recommend Blue Sky Plumbing today".data] ∧
    ((∃ pre post, ("recommend Blue Sky Plumbing today".data : List Char) =
        pre ++ "Blue Sky Plumbing".data ++ post ∧
        capRunShape isSpaceChar "Blue Sky Plumbing".data = true ∧
        (∀ b2 post2, ("recommend Blue Sky Plumbing today".data : List Char) =
          pre ++ b2 ++ post2 → capRunShape isSpaceChar b2 = true →
          b2.length ≤ ("Blue Sky Plumbing".data : List Char).length) ∧
        (∀ pre2 p2 post2, ("recommend Blue Sky Plumbing today".data : List Char) =
          pre2 ++ p2 ++ post2 → capRunShape isSpaceChar p2 = true →
          pre.length ≤ pre2.length)) ∨
      (("Blue Sky Plumbing".data : List Char) = "Unknown Business".data ∧
        ∀ pre b post, ("recommend Blue Sky Plumbing today".data : List Char) =
          pre ++ b ++ post → capRunShape isSpaceChar b = true → False)) :=
  ⟨by decide,
   c3_business_name_field
     ["[01/02/23, 3:45 PM] Ann: recommend Blue Sky Plumbing today".data]
     ⟨"Ann".data, "Blue Sky Plumbing".data, "No Contact Found".data,
      "recommend Blue Sky Plumbing today".data⟩ (by decide)⟩

/-- C3 as claimed is false: the code separates consecutive capitalized
words with the class `\s`, not only a single space.  In the message
`"call Blue\tSky now"` the claimed rule (single-space separators) yields
first match `"Blue"`, yet the emitted business name is the tab-joined
`"Blue\tSky"`. -/
theorem c3_counterexample :
    processLine "[01/02/23, 3:45 PM] Bob: call Blue\tSky now".data =
      some ⟨"Bob".data, "Blue\tSky".data, "No Contact Found".data,
            "call Blue\tSky now".data⟩ ∧
    claimFirstBusiness "call Blue\tSky now".data = some "Blue".data ∧
    ("Blue\tSky".data : List Char) ≠ "Blue".data := by
  decide

end Referrals
